import Mathlib

/-!
Shallow embedding of the RAG Web Indexer: the background service worker
(class RAGIndexer and its message handler) and the options page's data
backup/restore, together with proofs about ingestion, similarity search,
recency listing, persistence and the consistency of the URL map.

Numeric page embeddings are modelled with exact rationals; a cosine
similarity score is carried as the pair (dot, normSq) denoting the real
number dot / sqrt normSq, so the float comparisons done by the source's
sort comparators are modelled by the exact order on those real values.
JS's Array.prototype.sort with a comparator is modelled as a stable sort
(List.insertionSort) consistent with the comparator, per the ECMAScript
stable-sort requirement.
-/

namespace RAG

/-- Page metadata attached to an index entry; url is the natural key. -/
structure Metadata where
  url : String
  title : String
  descr : String
  domain : String
deriving DecidableEq, Repr

/-- One element of the faissIndex array of the background worker. -/
structure IndexEntry where
  id : Nat
  embedding : List ℚ
  metadata : Metadata
  content : String
  timestamp : Nat
deriving DecidableEq, Repr

/-- In-memory state of the RAGIndexer: the faissIndex array and the
urlMappings Map (a JS Map is modelled as its insertion-ordered
association list). -/
structure RAGState where
  faissIndex : List IndexEntry
  urlMappings : List (String × Nat)
deriving DecidableEq, Repr

/-- Semantics of JS Map.prototype.set: update the value in place if the
key is present (keeping its position), otherwise append the pair. -/
def setMap (k : String) (v : Nat) : List (String × Nat) → List (String × Nat)
  | [] => [(k, v)]
  | (k', v') :: rest => if k' = k then (k, v) :: rest else (k', v') :: setMap k v rest

/-- Embedding of findExistingUrl: the index of the first entry whose
metadata.url equals url (Array.prototype.findIndex; none stands for -1). -/
def findExistingUrl (st : RAGState) (url : String) : Option Nat :=
  st.faissIndex.findIdx? (fun e => e.metadata.url == url)

/-- Accumulation loop of cosineSimilarity: the sum of pointwise products. -/
def dotQ (a b : List ℚ) : ℚ := (List.zipWith (fun x y => x * y) a b).sum

lemma dotQ_self_nonneg (a : List ℚ) : 0 ≤ dotQ a a := by
  have h : List.zipWith (fun x y => x * y) a a = a.map (fun x => x * x) := by
    induction a with
    | nil => rfl
    | cons x l ih => simp [List.zipWith, ih]
  rw [dotQ, h]
  apply List.sum_nonneg
  intro x hx
  rcases List.mem_map.mp hx with ⟨y, _, rfl⟩
  exact mul_self_nonneg y

/-- Exact representation of a cosine similarity score: the value ⟨(d, s), h⟩
denotes the real number d / Real.sqrt s, with s > 0. -/
def Sim : Type := {p : ℚ × ℚ // 0 < p.2}

instance : DecidableEq Sim := fun a b =>
  decidable_of_iff (a.val = b.val) Subtype.ext_iff.symm

/-- Score 0, returned by the source on a length mismatch or a zero norm. -/
def simZero : Sim := ⟨(0, 1), by norm_num⟩

/-- Real value denoted by a similarity score. -/
noncomputable def simVal (s : Sim) : ℝ := (s.val.1 : ℝ) / Real.sqrt (s.val.2 : ℝ)

/-- Embedding of cosineSimilarity(a, b): 0 if the lengths differ, else
dot(a,b) / (‖a‖ * ‖b‖), and 0 if either norm is zero.  The square-root
and division are kept symbolic in the Sim representation. -/
def cosineSimilarity (a b : List ℚ) : Sim :=
  if a.length ≠ b.length then simZero
  else
    if h : dotQ a a = 0 ∨ dotQ b b = 0 then simZero
    else
      ⟨(dotQ a b, dotQ a a * dotQ b b), by
        rcases not_or.mp h with ⟨h1, h2⟩
        have ha := dotQ_self_nonneg a
        have hb := dotQ_self_nonneg b
        exact mul_pos (lt_of_le_of_ne ha (Ne.symm h1)) (lt_of_le_of_ne hb (Ne.symm h2))⟩

/-- Decidable comparison on similarity scores, by sign analysis and
cross-multiplied squares; simLeB_iff proves it coincides with the order
of the denoted real values (the order the float comparator computes). -/
def simLeB (x y : Sim) : Bool :=
  if x.val.1 ≤ 0 then
    if 0 ≤ y.val.1 then true
    else decide (y.val.1 ^ 2 * x.val.2 ≤ x.val.1 ^ 2 * y.val.2)
  else
    if y.val.1 ≤ 0 then false
    else decide (x.val.1 ^ 2 * y.val.2 ≤ y.val.1 ^ 2 * x.val.2)

/-- Record built by the map step of searchSimilar:
{ index, similarity, entry }. -/
structure SimEntry where
  index : Nat
  similarity : Sim
  entry : IndexEntry
deriving DecidableEq

/-- Record returned by searchSimilar: the spread { ...item.entry, similarity }. -/
structure SearchResult where
  entry : IndexEntry
  similarity : Sim
deriving DecidableEq

/-- Order realized by the comparator (a, b) => b.similarity - a.similarity:
a may precede b exactly when a's score is at least b's. -/
def searchLe (a b : SimEntry) : Prop := simLeB b.similarity a.similarity = true

instance : DecidableRel searchLe := fun a b => by
  unfold searchLe; infer_instance

/-- Semantics of Array.prototype.slice(0, e): a negative end counts back
from the end of the array, clamped at 0. -/
def jsSlice {α : Type} (l : List α) (e : Int) : List α :=
  if e < 0 then l.take ((l.length : Int) + e).toNat else l.take e.toNat

/-- Intermediate similarities array of searchSimilar, in store order. -/
def simList (st : RAGState) (q : List ℚ) : List SimEntry :=
  st.faissIndex.enum.map (fun p => ⟨p.1, cosineSimilarity q p.2.embedding, p.2⟩)

/-- Embedding of searchSimilar(query, topK): empty on an empty store;
empty when the embedding provider throws (the catch branch); otherwise
map to similarities, stable-sort descending by score, slice to topK, and
spread each entry with its similarity. -/
def searchSimilar (st : RAGState) (qEmb : Option (List ℚ)) (topK : Int) :
    List SearchResult :=
  if st.faissIndex = [] then []
  else
    match qEmb with
    | none => []
    | some q =>
      (jsSlice ((simList st q).insertionSort searchLe) topK).map
        (fun it => ⟨it.entry, it.similarity⟩)

/-- Result value of addToIndex: success flag and the entry id on success. -/
structure AddResult where
  success : Bool
  id : Option Nat
deriving DecidableEq, Repr

/-- Request payload of processPage: page content and its metadata. -/
structure PageData where
  content : String
  metadata : Metadata
deriving DecidableEq, Repr

/-- Semantics of content.substring(0, n): the first n characters, the
whole string when it is shorter (kept as a character-list truncation). -/
def jsSubstring (s : String) (n : Nat) : String := String.mk (s.data.take n)

/-- Embedding of addToIndex(pageData).  The external embedding provider's
outcome is the parameter emb (none models generateEmbedding throwing, which
the catch turns into a failure result).  now models Date.now().  On success
the entry is written in place when the URL already exists (keeping the old
id) or pushed otherwise, and the URL mapping is set. -/
def addToIndex (st : RAGState) (emb : Option (List ℚ)) (pd : PageData) (now : Nat) :
    RAGState × AddResult :=
  match emb with
  | none => (st, ⟨false, none⟩)
  | some embedding =>
    match findExistingUrl st pd.metadata.url with
    | some i =>
      let oldId := ((st.faissIndex.get? i).map (fun e => e.id)).getD 0
      let e : IndexEntry := ⟨oldId, embedding, pd.metadata, jsSubstring pd.content 1000, now⟩
      (⟨st.faissIndex.set i e, setMap pd.metadata.url e.id st.urlMappings⟩,
        ⟨true, some e.id⟩)
    | none =>
      let e : IndexEntry := ⟨now, embedding, pd.metadata, jsSubstring pd.content 1000, now⟩
      (⟨st.faissIndex ++ [e], setMap pd.metadata.url e.id st.urlMappings⟩,
        ⟨true, some e.id⟩)

/-- Embedding of clearIndex(): both the array and the map are emptied. -/
def clearIndex (_st : RAGState) : RAGState := ⟨[], []⟩

/-- Order realized by the comparator (a, b) => b.timestamp - a.timestamp. -/
def recentLe (a b : IndexEntry) : Prop := b.timestamp ≤ a.timestamp

instance : DecidableRel recentLe := fun a b => by
  unfold recentLe; infer_instance

/-- Handler of the getRecentPages message: this.faissIndex.sort(...) sorts
the stored array in place (the new state keeps the sorted array), then
slice(0, request.limit || 10) is returned; a limit of 0 is falsy in JS and
falls back to 10. -/
def handleGetRecentPages (st : RAGState) (limit : Option Int) :
    RAGState × List IndexEntry :=
  let lim : Int := match limit with | none => 10 | some k => if k = 0 then 10 else k
  let sorted := st.faissIndex.insertionSort recentLe
  (⟨sorted, st.urlMappings⟩, jsSlice sorted lim)

/-- Response of the search message handler. -/
structure SearchResponse where
  success : Bool
  results : List SearchResult
deriving DecidableEq

/-- Handler of the search message: { success: true, results }, with
request.topK || 5 (a topK of 0 is falsy and falls back to 5). -/
def handleSearch (st : RAGState) (qEmb : Option (List ℚ)) (topK : Option Int) :
    SearchResponse :=
  let k : Int := match topK with | none => 5 | some k => if k = 0 then 5 else k
  ⟨true, searchSimilar st qEmb k⟩

/-- Contents of chrome.storage.local at the keys the worker uses; a field
is none when the key is absent. -/
structure LocalStorage where
  faissIndex : Option (List IndexEntry)
  urlMappings : Option (List (String × Nat))
deriving DecidableEq

/-- Storage before any data was ever saved. -/
def emptyStorage : LocalStorage := ⟨none, none⟩

/-- Embedding of saveStoredData(): both records are written. -/
def saveStoredData (st : RAGState) : LocalStorage :=
  ⟨some st.faissIndex, some st.urlMappings⟩

/-- Semantics of new Map(entries): set each pair in order. -/
def mapFromEntries (l : List (String × Nat)) : List (String × Nat) :=
  l.foldl (fun m p => setMap p.1 p.2 m) []

/-- Embedding of loadStoredData(): each record is taken from storage when
present, and left at its initial empty value otherwise. -/
def loadStoredData (s : LocalStorage) : RAGState :=
  ⟨(s.faissIndex).getD [], ((s.urlMappings).map mapFromEntries).getD []⟩

/-- Parsed shape of a backup file as the options page validates it: the
version and data fields may each be absent. -/
structure RawBackup where
  version : Option String
  data : Option LocalStorage
deriving DecidableEq

/-- Embedding of the options page exportData(): wraps the whole local
storage with a version tag (the timestamp and settings fields play no role
in the round trip and are omitted). -/
def exportData (s : LocalStorage) : RawBackup := ⟨some "1.0.0", some s⟩

/-- Embedding of the options page importData(): the check
(!data.version || !data.data) throws before anything is cleared, so on
failure the storage is untouched; on success the storage is cleared and
replaced by the backup's data.  A missing field or an empty version string
is falsy in JS. -/
def importDataOp (s : LocalStorage) (b : RawBackup) : LocalStorage × Bool :=
  match b.version, b.data with
  | some v, some d => if v = "" then (s, false) else (d, true)
  | some _, none => (s, false)
  | none, _ => (s, false)

/-! Correctness of the exact similarity order: simLeB computes precisely the
order of the denoted real values, which is the order the source's float
comparator (b.similarity - a.similarity) realizes. -/

lemma simLeB_iff (x y : Sim) : simLeB x y = true ↔ simVal x ≤ simVal y := by
  rcases x with ⟨⟨d1, s1⟩, hs1⟩
  rcases y with ⟨⟨d2, s2⟩, hs2⟩
  have hq1 : (0:ℝ) < (s1 : ℝ) := by exact_mod_cast hs1
  have hq2 : (0:ℝ) < (s2 : ℝ) := by exact_mod_cast hs2
  have hs1R : (0:ℝ) < Real.sqrt (s1 : ℝ) := Real.sqrt_pos.mpr hq1
  have hs2R : (0:ℝ) < Real.sqrt (s2 : ℝ) := Real.sqrt_pos.mpr hq2
  have e1 : Real.sqrt (s1 : ℝ) ^ 2 = (s1 : ℝ) := Real.sq_sqrt (le_of_lt hq1)
  have e2 : Real.sqrt (s2 : ℝ) ^ 2 = (s2 : ℝ) := Real.sq_sqrt (le_of_lt hq2)
  show simLeB ⟨(d1, s1), hs1⟩ ⟨(d2, s2), hs2⟩ = true ↔ _
  simp only [simLeB, simVal]
  rw [div_le_div_iff₀ hs1R hs2R]
  split_ifs with h1 h2 h3
  · have hd1 : (d1:ℝ) ≤ 0 := by exact_mod_cast h1
    have hd2 : (0:ℝ) ≤ (d2:ℝ) := by exact_mod_cast h2
    refine iff_of_true rfl ?_
    calc (d1:ℝ) * Real.sqrt (s2:ℝ) ≤ 0 := mul_nonpos_iff.mpr (Or.inr ⟨hd1, le_of_lt hs2R⟩)
      _ ≤ (d2:ℝ) * Real.sqrt (s1:ℝ) := mul_nonneg hd2 (le_of_lt hs1R)
  · have hd1 : (d1:ℝ) ≤ 0 := by exact_mod_cast h1
    have hd2 : (d2:ℝ) < 0 := by exact_mod_cast (lt_of_not_le h2)
    rw [decide_eq_true_iff]
    have hA : (d1:ℝ) * Real.sqrt (s2:ℝ) ≤ 0 :=
      mul_nonpos_iff.mpr (Or.inr ⟨hd1, le_of_lt hs2R⟩)
    have hB : (d2:ℝ) * Real.sqrt (s1:ℝ) < 0 := mul_neg_of_neg_of_pos hd2 hs1R
    have eA : ((d1:ℝ) * Real.sqrt (s2:ℝ)) ^ 2 = (d1:ℝ)^2 * (s2:ℝ) := by rw [mul_pow, e2]
    have eB : ((d2:ℝ) * Real.sqrt (s1:ℝ)) ^ 2 = (d2:ℝ)^2 * (s1:ℝ) := by rw [mul_pow, e1]
    constructor
    · intro h
      have hR : (d2:ℝ)^2 * (s1:ℝ) ≤ (d1:ℝ)^2 * (s2:ℝ) := by exact_mod_cast h
      have key : ((d2:ℝ) * Real.sqrt (s1:ℝ))^2 ≤ ((d1:ℝ) * Real.sqrt (s2:ℝ))^2 := by
        rw [eA, eB]; exact hR
      have habs : |(d2:ℝ) * Real.sqrt (s1:ℝ)| ≤ |(d1:ℝ) * Real.sqrt (s2:ℝ)| := by
        have := (pow_le_pow_iff_left₀ (abs_nonneg ((d2:ℝ) * Real.sqrt (s1:ℝ)))
          (abs_nonneg ((d1:ℝ) * Real.sqrt (s2:ℝ))) (two_ne_zero)).mp
        apply this
        rw [sq_abs, sq_abs]; exact key
      rw [abs_of_neg hB, abs_of_nonpos hA] at habs
      linarith
    · intro h
      have habs : -((d2:ℝ) * Real.sqrt (s1:ℝ)) ≤ -((d1:ℝ) * Real.sqrt (s2:ℝ)) := by linarith
      have key : ((d2:ℝ) * Real.sqrt (s1:ℝ))^2 ≤ ((d1:ℝ) * Real.sqrt (s2:ℝ))^2 := by
        have h0B : (0:ℝ) ≤ -((d2:ℝ) * Real.sqrt (s1:ℝ)) := by linarith
        have := pow_le_pow_left₀ h0B habs 2
        simpa [neg_pow] using this
      rw [eA, eB] at key
      exact_mod_cast key
  · have hd1 : (0:ℝ) < (d1:ℝ) := by exact_mod_cast (lt_of_not_le h1)
    have hd2 : (d2:ℝ) ≤ 0 := by exact_mod_cast h3
    refine iff_of_false (by simp) ?_
    rw [not_le]
    calc (d2:ℝ) * Real.sqrt (s1:ℝ) ≤ 0 := mul_nonpos_iff.mpr (Or.inr ⟨hd2, le_of_lt hs1R⟩)
      _ < (d1:ℝ) * Real.sqrt (s2:ℝ) := mul_pos hd1 hs2R
  · have hd1 : (0:ℝ) < (d1:ℝ) := by exact_mod_cast (lt_of_not_le h1)
    have hd2 : (0:ℝ) < (d2:ℝ) := by exact_mod_cast (lt_of_not_le h3)
    rw [decide_eq_true_iff]
    have hA : (0:ℝ) ≤ (d1:ℝ) * Real.sqrt (s2:ℝ) := le_of_lt (mul_pos hd1 hs2R)
    have hB : (0:ℝ) ≤ (d2:ℝ) * Real.sqrt (s1:ℝ) := le_of_lt (mul_pos hd2 hs1R)
    have eA : ((d1:ℝ) * Real.sqrt (s2:ℝ)) ^ 2 = (d1:ℝ)^2 * (s2:ℝ) := by rw [mul_pow, e2]
    have eB : ((d2:ℝ) * Real.sqrt (s1:ℝ)) ^ 2 = (d2:ℝ)^2 * (s1:ℝ) := by rw [mul_pow, e1]
    constructor
    · intro h
      have hR : (d1:ℝ)^2 * (s2:ℝ) ≤ (d2:ℝ)^2 * (s1:ℝ) := by exact_mod_cast h
      exact (pow_le_pow_iff_left₀ hA hB two_ne_zero).mp (by rw [eA, eB]; exact hR)
    · intro h
      have key := pow_le_pow_left₀ hA h 2
      rw [eA, eB] at key
      exact_mod_cast key

lemma searchLe_iff (a b : SimEntry) :
    searchLe a b ↔ simVal b.similarity ≤ simVal a.similarity := by
  unfold searchLe; exact simLeB_iff b.similarity a.similarity

instance : IsTotal SimEntry searchLe :=
  ⟨fun a b => by
    rw [searchLe_iff, searchLe_iff]
    exact (le_total (simVal b.similarity) (simVal a.similarity))⟩

instance : IsTrans SimEntry searchLe :=
  ⟨fun a b c hab hbc => by
    rw [searchLe_iff] at hab hbc ⊢
    exact le_trans hbc hab⟩

instance : IsTotal IndexEntry recentLe :=
  ⟨fun a b => le_total b.timestamp a.timestamp⟩

instance : IsTrans IndexEntry recentLe :=
  ⟨fun a b c hab hbc => le_trans hbc hab⟩

lemma setMap_of_not_mem (k : String) (v : Nat) (l : List (String × Nat))
    (h : k ∉ l.map Prod.fst) : setMap k v l = l ++ [(k, v)] := by
  induction l with
  | nil => rfl
  | cons p l ih =>
    rcases p with ⟨k', v'⟩
    simp only [List.map_cons, List.mem_cons] at h
    push_neg at h
    obtain ⟨h1, h2⟩ := h
    have hne : ¬ k' = k := fun hh => h1 (Eq.symm hh)
    simp [setMap, hne, ih h2]

lemma setMap_eq_self (k : String) (v : Nat) (l : List (String × Nat))
    (hmem : (k, v) ∈ l) (hnd : (l.map Prod.fst).Nodup) : setMap k v l = l := by
  induction l with
  | nil => cases hmem
  | cons p l ih =>
    rcases p with ⟨k', v'⟩
    simp only [List.map_cons, List.nodup_cons] at hnd
    obtain ⟨hk, hnd'⟩ := hnd
    rcases List.mem_cons.mp hmem with heq | hmem'
    · rw [Prod.mk.injEq] at heq
      obtain ⟨hk1, hv1⟩ := heq
      simp [setMap, hk1.symm, hv1.symm]
    · have hne : ¬ k' = k := by
        intro hh
        subst hh
        exact hk (List.mem_map.mpr ⟨(k', v), hmem', rfl⟩)
      simp [setMap, hne, ih hmem' hnd']

lemma foldl_setMap (l acc : List (String × Nat))
    (h : ((acc ++ l).map Prod.fst).Nodup) :
    l.foldl (fun m p => setMap p.1 p.2 m) acc = acc ++ l := by
  induction l generalizing acc with
  | nil => simp
  | cons p l ih =>
    have hcast : (acc ++ p :: l) = ((acc ++ [p]) ++ l) := by rw [List.append_cons]
    rw [hcast] at h
    have hk : p.1 ∉ acc.map Prod.fst := by
      intro hmem
      have h2 : ((acc ++ [p]).map Prod.fst).Nodup := by
        rw [List.map_append] at h
        exact (List.nodup_append.mp h).1
      rw [List.map_append] at h2
      rcases List.nodup_append.mp h2 with ⟨_, _, hdisj⟩
      exact hdisj hmem (by simp)
    rw [List.foldl_cons, setMap_of_not_mem _ _ _ hk, ih _ h]
    simp

lemma mapFromEntries_eq_self (l : List (String × Nat))
    (hnd : (l.map Prod.fst).Nodup) : mapFromEntries l = l := by
  have := foldl_setMap l [] (by simpa using hnd)
  simpa [mapFromEntries] using this

lemma lookup_eq_some (k : String) (v : Nat) (l : List (String × Nat))
    (hmem : (k, v) ∈ l) (hnd : (l.map Prod.fst).Nodup) : List.lookup k l = some v := by
  induction l with
  | nil => cases hmem
  | cons p l ih =>
    rcases p with ⟨k', v'⟩
    simp only [List.map_cons, List.nodup_cons] at hnd
    obtain ⟨hk, hnd'⟩ := hnd
    rcases List.mem_cons.mp hmem with heq | hmem'
    · rw [Prod.mk.injEq] at heq
      obtain ⟨hk1, hv1⟩ := heq
      subst hk1; subst hv1
      simp [List.lookup]
    · have hne : k ≠ k' := by
        intro hh
        subst hh
        exact hk (List.mem_map.mpr ⟨(k, v), hmem', rfl⟩)
      have hbeq : (k == k') = false := beq_eq_false_iff_ne.mpr hne
      simp only [List.lookup, hbeq]
      exact ih hmem' hnd'

lemma list_set_self {α : Type} (l : List α) (i : Nat) (a : α)
    (h : l.get? i = some a) : l.set i a = l := by
  induction l generalizing i with
  | nil => simp at h
  | cons x l ih =>
    cases i with
    | zero => simp_all
    | succ n =>
      simp only [List.get?_cons_succ] at h
      simp [List.set, ih n h]

/-- Key a store entry contributes to the URL map. -/
def entryKey (e : IndexEntry) : String × Nat := (e.metadata.url, e.id)

/-- Internal invariant tying urlMappings to faissIndex: the map holds
exactly the url and id pairs of the entries, in some order, and no two
entries share a URL. -/
def Inv (st : RAGState) : Prop :=
  st.urlMappings.Perm (st.faissIndex.map entryKey) ∧
  (st.faissIndex.map (fun e => e.metadata.url)).Nodup

/-- Mutual consistency of the URL map and the entry collection, as the
spec states it. -/
def MutuallyConsistent (st : RAGState) : Prop :=
  (∀ p ∈ st.urlMappings, ∃ e ∈ st.faissIndex, e.id = p.2 ∧ e.metadata.url = p.1) ∧
  (∀ e ∈ st.faissIndex, List.lookup e.metadata.url st.urlMappings = some e.id)

lemma inv_keys_nodup {st : RAGState} (h : Inv st) :
    (st.urlMappings.map Prod.fst).Nodup := by
  obtain ⟨hperm, hnd⟩ := h
  have h2 : (st.urlMappings.map Prod.fst).Perm
      ((st.faissIndex.map entryKey).map Prod.fst) := hperm.map Prod.fst
  have h3 : (st.faissIndex.map entryKey).map Prod.fst
      = st.faissIndex.map (fun e => e.metadata.url) := by
    rw [List.map_map]; rfl
  rw [h3] at h2
  exact h2.nodup_iff.mpr hnd

lemma mutuallyConsistent_of_inv {st : RAGState} (h : Inv st) :
    MutuallyConsistent st := by
  obtain ⟨hperm, hnd⟩ := h
  constructor
  · intro p hp
    have hp2 : p ∈ st.faissIndex.map entryKey := hperm.mem_iff.mp hp
    rcases List.mem_map.mp hp2 with ⟨e, he, hkey⟩
    exact ⟨e, he, by rw [← hkey]; rfl, by rw [← hkey]; rfl⟩
  · intro e he
    have hmem : (e.metadata.url, e.id) ∈ st.urlMappings :=
      hperm.mem_iff.mpr (List.mem_map.mpr ⟨e, he, rfl⟩)
    exact lookup_eq_some _ _ _ hmem (inv_keys_nodup ⟨hperm, hnd⟩)

lemma findExistingUrl_some {st : RAGState} {u : String} {i : Nat}
    (h : findExistingUrl st u = some i) :
    ∃ hlt : i < st.faissIndex.length,
      (st.faissIndex.get ⟨i, hlt⟩).metadata.url = u := by
  unfold findExistingUrl at h
  rw [List.findIdx?_eq_some_iff_getElem] at h
  obtain ⟨hlt, hp, _⟩ := h
  refine ⟨hlt, ?_⟩
  simpa [List.get_eq_getElem] using hp

lemma findExistingUrl_none {st : RAGState} {u : String}
    (h : findExistingUrl st u = none) :
    ∀ e ∈ st.faissIndex, e.metadata.url ≠ u := by
  unfold findExistingUrl at h
  rw [List.findIdx?_eq_none_iff] at h
  intro e he
  have := h e he
  simpa using this

lemma inv_addToIndex {st : RAGState} (h : Inv st)
    (emb : Option (List ℚ)) (pd : PageData) (now : Nat) :
    Inv (addToIndex st emb pd now).1 := by
  obtain ⟨hperm, hnd⟩ := h
  cases emb with
  | none => exact ⟨hperm, hnd⟩
  | some embedding =>
    unfold addToIndex
    cases hfind : findExistingUrl st pd.metadata.url with
    | some i =>
      obtain ⟨hlt, hurl⟩ := findExistingUrl_some hfind
      have hget : st.faissIndex.get? i = some (st.faissIndex.get ⟨i, hlt⟩) :=
        List.get?_eq_get hlt
      simp only [hget, Option.map_some, Option.getD_some]
      set e₀ := st.faissIndex.get ⟨i, hlt⟩ with he₀
      set eNew : IndexEntry :=
        ⟨e₀.id, embedding, pd.metadata, jsSubstring pd.content 1000, now⟩ with heNew
      have hkey : entryKey eNew = entryKey e₀ := by
        simp [entryKey, heNew, hurl]
      have hmapset : (st.faissIndex.set i eNew).map entryKey
          = st.faissIndex.map entryKey := by
        rw [List.map_set, hkey]
        apply list_set_self
        rw [List.get?_map, hget]
        rfl
      have hurlset : (st.faissIndex.set i eNew).map (fun e => e.metadata.url)
          = st.faissIndex.map (fun e => e.metadata.url) := by
        rw [List.map_set]
        have : eNew.metadata.url = e₀.metadata.url := by simp [heNew, hurl]
        rw [this]
        apply list_set_self
        rw [List.get?_map, hget]
        rfl
      have hmem : (pd.metadata.url, e₀.id) ∈ st.urlMappings := by
        apply hperm.mem_iff.mpr
        apply List.mem_map.mpr
        exact ⟨e₀, List.get_mem _ _ _, by simp [entryKey, hurl]⟩
      have hsetmap : setMap pd.metadata.url e₀.id st.urlMappings = st.urlMappings :=
        setMap_eq_self _ _ _ hmem (inv_keys_nodup ⟨hperm, hnd⟩)
      constructor
      · simpa [hmapset, hsetmap] using hperm
      · simpa [hurlset] using hnd
    | none =>
      have hfresh := findExistingUrl_none hfind
      have hnotmem : pd.metadata.url ∉
          st.faissIndex.map (fun e => e.metadata.url) := by
        intro hmem
        rcases List.mem_map.mp hmem with ⟨e, he, hu⟩
        exact hfresh e he hu
      have hkeys : pd.metadata.url ∉ st.urlMappings.map Prod.fst := by
        intro hmem
        have h2 := (hperm.map Prod.fst).mem_iff.mp hmem
        rw [List.map_map] at h2
        exact hnotmem h2
      set eNew : IndexEntry :=
        ⟨now, embedding, pd.metadata, jsSubstring pd.content 1000, now⟩ with heNew
      have hsetmap : setMap pd.metadata.url now st.urlMappings
          = st.urlMappings ++ [(pd.metadata.url, now)] :=
        setMap_of_not_mem _ _ _ hkeys
      constructor
      · simp only [hsetmap, List.map_append, List.map_cons, List.map_nil]
        have hek : entryKey eNew = (pd.metadata.url, now) := by simp [entryKey, heNew]
        rw [hek]
        exact hperm.append_right _
      · simp only [List.map_append]
        rw [List.nodup_append]
        refine ⟨hnd, by simp, ?_⟩
        intro u hu hmem
        simp only [heNew, List.map_cons, List.map_nil, List.mem_cons,
          List.not_mem_nil, or_false] at hmem
        subst hmem
        exact hnotmem hu

lemma inv_clear (st : RAGState) : Inv (clearIndex st) := by
  constructor <;> simp [clearIndex]

lemma inv_recent {st : RAGState} (h : Inv st) (limit : Option Int) :
    Inv (handleGetRecentPages st limit).1 := by
  obtain ⟨hperm, hnd⟩ := h
  have hp : (st.faissIndex.insertionSort recentLe).Perm st.faissIndex :=
    List.perm_insertionSort recentLe st.faissIndex
  constructor
  · exact hperm.trans (hp.map entryKey).symm
  · exact ((hp.map (fun e => e.metadata.url)).nodup_iff).mpr hnd

lemma load_save {st : RAGState} (h : (st.urlMappings.map Prod.fst).Nodup) :
    loadStoredData (saveStoredData st) = st := by
  unfold loadStoredData saveStoredData
  simp [mapFromEntries_eq_self _ h]

lemma inv_startup : Inv (loadStoredData emptyStorage) := by
  constructor <;> simp [loadStoredData, emptyStorage, mapFromEntries]

/-- States of the indexer produced by the program itself: the startup load
(from empty storage or from storage written by a save of a reachable
state) and the three mutating message handlers. -/
inductive Reachable : RAGState → Prop
  | startup : Reachable (loadStoredData emptyStorage)
  | restart (st : RAGState) : Reachable st → Reachable (loadStoredData (saveStoredData st))
  | upsert (st : RAGState) (emb : Option (List ℚ)) (pd : PageData) (now : Nat) :
      Reachable st → Reachable (addToIndex st emb pd now).1
  | clear (st : RAGState) : Reachable st → Reachable (clearIndex st)
  | recent (st : RAGState) (limit : Option Int) :
      Reachable st → Reachable (handleGetRecentPages st limit).1

lemma inv_reachable {st : RAGState} (h : Reachable st) : Inv st := by
  induction h with
  | startup => exact inv_startup
  | restart st hst ih =>
    rw [load_save (inv_keys_nodup ih)]
    exact ih
  | upsert st emb pd now hst ih => exact inv_addToIndex ih emb pd now
  | clear st hst ih => exact inv_clear st
  | recent st limit hst ih => exact inv_recent ih limit

/-- Concrete pages used by the concrete-input theorems below. -/
def pdA : PageData := ⟨"alpha page text", ⟨"https://a.example/", "A", "", "a.example"⟩⟩

def pdB : PageData := ⟨"beta page text", ⟨"https://b.example/", "B", "", "b.example"⟩⟩

def pdC : PageData := ⟨"gamma page text", ⟨"https://c.example/", "C", "", "c.example"⟩⟩

/-- Store obtained by ingesting pdA at time 1 into the fresh store. -/
def stA : RAGState := (addToIndex ⟨[], []⟩ (some [1]) pdA 1).1

/-- Store obtained by then ingesting pdB at time 2. -/
def stAB : RAGState := (addToIndex stA (some [1]) pdB 2).1

/-- Store obtained by then ingesting pdC at time 3. -/
def stABC : RAGState := (addToIndex stAB (some [1]) pdC 3).1

/-- Store with one entry of embedding length 2 (established dimension 2). -/
def stDim : RAGState := (addToIndex ⟨[], []⟩ (some [1, 1]) pdA 1).1

/-- C1: the claim that a configured maximum size is enforced by upserts
fails in the code: addToIndex never evicts and no maximum size is ever
read.  After ingesting the three distinct URLs A, B, C (with any
configured maximum, e.g. maxIndexSize = 2), all three entries are still
present, in insertion order, and A was not evicted. -/
theorem C1_capacity_never_enforced :
    stABC.faissIndex.length = 3 ∧
    stABC.faissIndex.map (fun e => e.metadata.url) =
      [pdA.metadata.url, pdB.metadata.url, pdC.metadata.url] := by decide

/-- C3 counterexample: with a non-empty store of established dimension 2,
an upsert whose embedding has length 3 reports success and the mismatched
embedding is stored (nothing is rejected). -/
theorem C3_counterexample_mismatched_dimension_stored :
    stDim.faissIndex.map (fun e => e.embedding.length) = [2] ∧
    (addToIndex stDim (some [1, 2, 3]) pdB 2).2.success = true ∧
    (addToIndex stDim (some [1, 2, 3]) pdB 2).1.faissIndex.map
      (fun e => e.embedding.length) = [2, 3] := by decide

/-- C3 amended: addToIndex performs no dimension validation at all: for
every store and every embedding the provider returns, the upsert reports
success and an entry carrying exactly that embedding is in the resulting
store, whatever its length. -/
theorem C3_amended_no_dimension_check (st : RAGState) (emb : List ℚ)
    (pd : PageData) (now : Nat) :
    (addToIndex st (some emb) pd now).2.success = true ∧
    ∃ e ∈ (addToIndex st (some emb) pd now).1.faissIndex, e.embedding = emb := by
  rcases hfe : findExistingUrl st pd.metadata.url with _ | i
  · simp only [addToIndex, hfe]
    exact ⟨trivial, ⟨now, emb, pd.metadata, jsSubstring pd.content 1000, now⟩, by simp, rfl⟩
  · obtain ⟨hlt, _⟩ := findExistingUrl_some hfe
    simp only [addToIndex, hfe]
    exact ⟨trivial, _, List.mem_set st.faissIndex i hlt _, rfl⟩

/-- C6 counterexample: a negative topK does not return the empty sequence:
on a store of two entries, topK = -1 returns one result (JS slice drops
one element from the end). -/
theorem C6_counterexample_negative_topK_not_empty :
    stAB.faissIndex.length = 2 ∧
    (searchSimilar stAB (some [0, 0]) (-1)).length = 1 := by decide

/-- C7 counterexample: with a non-empty store and a failing embedding
provider, the search handler reports success with an empty, silently
defaulted result list instead of an explicit failure value. -/
theorem C7_counterexample_silent_success_on_provider_failure :
    stA.faissIndex ≠ [] ∧
    handleSearch stA none (some 5) = ⟨true, []⟩ := by decide

/-- C7 amended: a query on which the embedding provider fails is silently
defaulted: the search handler reports success with an empty result list
(the failure is only logged).  Ingestion, by contrast, propagates the
failure as an explicit failure result and leaves the store unchanged. -/
theorem C7_amended_search_silent_ingestion_explicit (st : RAGState)
    (topK : Option Int) (pd : PageData) (now : Nat) :
    handleSearch st none topK = ⟨true, []⟩ ∧
    (addToIndex st none pd now).2 = ⟨false, none⟩ ∧
    (addToIndex st none pd now).1 = st := by
  refine ⟨?_, rfl, rfl⟩
  cases topK with
  | none =>
    simp only [handleSearch, searchSimilar]
    split_ifs <;> rfl
  | some k =>
    simp only [handleSearch, searchSimilar]
    split_ifs <;> rfl

/-- C9: in every state the program itself can reach (startup load from
empty or saved storage, upserts, clears, recent-pages calls), the URL map
and the entry collection are mutually consistent: every pair in the map
names the URL and id of an entry in the collection, and looking up any
entry's URL in the map yields that entry's id. -/
theorem C9_url_map_and_entries_mutually_consistent (st : RAGState)
    (h : Reachable st) : MutuallyConsistent st :=
  mutuallyConsistent_of_inv (inv_reachable h)

theorem C9_url_map_and_entries_mutually_consistent_witness :
    MutuallyConsistent stA :=
  C9_url_map_and_entries_mutually_consistent stA
    (Reachable.upsert ⟨[], []⟩ (some [1]) pdA 1 Reachable.startup)

/-- C10: getRecentPages is not read-only: it sorts the stored array in
place by descending timestamp, so afterwards the store's internal order is
newest-first, while the multiset of entries and the URL map are unchanged;
on a concrete store whose entries were inserted oldest-first the state
really changes. -/
theorem C10_get_recent_pages_sorts_store_in_place :
    (∀ (st : RAGState) (limit : Option Int),
      ((handleGetRecentPages st limit).1.faissIndex).Perm st.faissIndex ∧
      ((handleGetRecentPages st limit).1.faissIndex).Pairwise recentLe ∧
      (handleGetRecentPages st limit).1.urlMappings = st.urlMappings) ∧
    (handleGetRecentPages stAB (some 10)).1 ≠ stAB := by
  constructor
  · intro st limit
    refine ⟨List.perm_insertionSort recentLe st.faissIndex, ?_, rfl⟩
    exact List.sorted_insertionSort recentLe st.faissIndex
  · decide

lemma jsSlice_sublist {α : Type} (l : List α) (e : Int) : (jsSlice l e).Sublist l := by
  unfold jsSlice
  split_ifs <;> apply List.take_sublist

/-- C2: re-upserting a URL already in the store (at first matching index i)
replaces that entry in place with the new embedding, metadata, content
preview and timestamp while keeping the original id; the size is unchanged,
the reported id is the original one, and with duplicate-free URLs the store
keeps exactly one entry for that URL. -/
theorem C2_reupsert_same_url_in_place (st : RAGState) (emb : List ℚ)
    (pd : PageData) (now : Nat) (i : Nat)
    (hfind : findExistingUrl st pd.metadata.url = some i)
    (hnd : (st.faissIndex.map (fun e => e.metadata.url)).Nodup) :
    ∃ hlt : i < st.faissIndex.length,
      (st.faissIndex.get ⟨i, hlt⟩).metadata.url = pd.metadata.url ∧
      (addToIndex st (some emb) pd now).1.faissIndex =
        st.faissIndex.set i
          ⟨(st.faissIndex.get ⟨i, hlt⟩).id, emb, pd.metadata,
            jsSubstring pd.content 1000, now⟩ ∧
      (addToIndex st (some emb) pd now).1.faissIndex.length =
        st.faissIndex.length ∧
      (addToIndex st (some emb) pd now).2 =
        ⟨true, some (st.faissIndex.get ⟨i, hlt⟩).id⟩ ∧
      (addToIndex st (some emb) pd now).1.faissIndex.countP
        (fun e => e.metadata.url == pd.metadata.url) = 1 := by
  obtain ⟨hlt, hurl⟩ := findExistingUrl_some hfind
  have hget : st.faissIndex.get? i = some (st.faissIndex.get ⟨i, hlt⟩) :=
    List.get?_eq_get hlt
  have hred : addToIndex st (some emb) pd now =
      (⟨st.faissIndex.set i
          ⟨(st.faissIndex.get ⟨i, hlt⟩).id, emb, pd.metadata,
            jsSubstring pd.content 1000, now⟩,
        setMap pd.metadata.url (st.faissIndex.get ⟨i, hlt⟩).id st.urlMappings⟩,
      ⟨true, some (st.faissIndex.get ⟨i, hlt⟩).id⟩) := by
    simp only [addToIndex, hfind, hget]
    rfl
  refine ⟨hlt, hurl, ?_, ?_, ?_, ?_⟩
  · rw [hred]
  · rw [hred]
    exact List.length_set st.faissIndex i _
  · rw [hred]
  · have hmapurl : (st.faissIndex.set i
        ⟨(st.faissIndex.get ⟨i, hlt⟩).id, emb, pd.metadata,
          jsSubstring pd.content 1000, now⟩).map (fun e => e.metadata.url)
        = st.faissIndex.map (fun e => e.metadata.url) := by
      rw [List.map_set]
      apply list_set_self
      rw [List.get?_map, hget]
      simp only [Option.map_some]
      show some (st.faissIndex.get ⟨i, hlt⟩).metadata.url = _
      rw [hurl]
    have hidx : (addToIndex st (some emb) pd now).1.faissIndex
        = st.faissIndex.set i
          ⟨(st.faissIndex.get ⟨i, hlt⟩).id, emb, pd.metadata,
            jsSubstring pd.content 1000, now⟩ := by rw [hred]
    rw [hidx]
    have hcp : List.countP (fun e => e.metadata.url == pd.metadata.url)
        (st.faissIndex.set i
          ⟨(st.faissIndex.get ⟨i, hlt⟩).id, emb, pd.metadata,
            jsSubstring pd.content 1000, now⟩)
        = List.countP (fun s => s == pd.metadata.url)
          ((st.faissIndex.set i
            ⟨(st.faissIndex.get ⟨i, hlt⟩).id, emb, pd.metadata,
              jsSubstring pd.content 1000, now⟩).map (fun e => e.metadata.url)) := by
      rw [List.countP_map]
      rfl
    rw [hcp, hmapurl, ← List.count_eq_countP]
    apply List.count_eq_one_of_mem hnd
    rw [← hurl]
    exact List.mem_map.mpr ⟨_, List.get_mem _ _ _, rfl⟩

theorem C2_reupsert_same_url_in_place_witness :
    ∃ hlt : 0 < stA.faissIndex.length,
      (stA.faissIndex.get ⟨0, hlt⟩).metadata.url = pdA.metadata.url ∧
      (addToIndex stA (some [2]) pdA 9).1.faissIndex =
        stA.faissIndex.set 0
          ⟨(stA.faissIndex.get ⟨0, hlt⟩).id, [2], pdA.metadata,
            jsSubstring pdA.content 1000, 9⟩ ∧
      (addToIndex stA (some [2]) pdA 9).1.faissIndex.length =
        stA.faissIndex.length ∧
      (addToIndex stA (some [2]) pdA 9).2 =
        ⟨true, some (stA.faissIndex.get ⟨0, hlt⟩).id⟩ ∧
      (addToIndex stA (some [2]) pdA 9).1.faissIndex.countP
        (fun e => e.metadata.url == pdA.metadata.url) = 1 :=
  C2_reupsert_same_url_in_place stA [2] pdA 9 0 (by decide) (by decide)

/-- First similarity record of simList stAB with the length-2 query, used
as a concrete tie instance. -/
def tieA : SimEntry :=
  ⟨0, cosineSimilarity [0, 0] [1], ⟨1, [1], pdA.metadata, jsSubstring pdA.content 1000, 1⟩⟩

/-- Second similarity record of simList stAB with the length-2 query. -/
def tieB : SimEntry :=
  ⟨1, cosineSimilarity [0, 0] [1], ⟨2, [1], pdB.metadata, jsSubstring pdB.content 1000, 2⟩⟩

lemma tie_list_eq : simList stAB [0, 0] = [tieA, tieB] := by decide

lemma tie_sublist : [tieA, tieB].Sublist (simList stAB [0, 0]) := by
  rw [tie_list_eq]

/-- C4 counterexample: two results with equal similarity are returned with
the OLDER timestamp first (the stable sort keeps store order on ties); the
claimed most-recent-first tie-break does not hold. -/
theorem C4_counterexample_equal_similarity_older_first :
    (searchSimilar stAB (some [0, 0]) 5).map (fun r => r.similarity) =
      [simZero, simZero] ∧
    (searchSimilar stAB (some [0, 0]) 5).map (fun r => r.entry.timestamp) =
      [1, 2] := by decide

/-- C4 amended: search results are sorted in non-increasing order of the
real cosine-similarity value, and two records with equal similarity keep
their relative order in the current store array (sort stability), rather
than being ordered most-recent-first. -/
theorem C4_amended_sorted_desc_ties_keep_store_order (st : RAGState)
    (q : List ℚ) (topK : Int) :
    (searchSimilar st (some q) topK).Pairwise
      (fun a b => simVal b.similarity ≤ simVal a.similarity) ∧
    (∀ a b : SimEntry, [a, b].Sublist (simList st q) →
      simVal a.similarity = simVal b.similarity →
      [a, b].Sublist ((simList st q).insertionSort searchLe)) := by
  constructor
  · unfold searchSimilar
    split_ifs with h
    · simp
    · show ((jsSlice ((simList st q).insertionSort searchLe) topK).map
        (fun it => (⟨it.entry, it.similarity⟩ : SearchResult))).Pairwise _
      rw [List.pairwise_map]
      have hsorted : ((simList st q).insertionSort searchLe).Pairwise searchLe :=
        List.sorted_insertionSort searchLe (simList st q)
      have hsub : (jsSlice ((simList st q).insertionSort searchLe) topK).Sublist
          ((simList st q).insertionSort searchLe) := jsSlice_sublist _ _
      have := List.Pairwise.sublist hsub hsorted
      apply this.imp
      intro a b hab
      exact (searchLe_iff a b).mp hab
  · intro a b hsub heq
    apply List.pair_sublist_insertionSort ?_ hsub
    rw [searchLe_iff]
    exact le_of_eq heq.symm

set_option maxRecDepth 4000 in
theorem C4_amended_sorted_desc_ties_keep_store_order_witness :
    ((searchSimilar stAB (some [0, 0]) 5).Pairwise
      (fun a b => simVal b.similarity ≤ simVal a.similarity)) ∧
    [tieA, tieB].Sublist ((simList stAB [0, 0]).insertionSort searchLe) :=
  ⟨(C4_amended_sorted_desc_ties_keep_store_order stAB [0, 0] 5).1,
    (C4_amended_sorted_desc_ties_keep_store_order stAB [0, 0] 5).2 tieA tieB
      tie_sublist rfl⟩

/-- C5 counterexample: with a non-empty store of established dimension 2,
a query embedding of length 3 does not produce a failure: the search
returns the full ranked result list, scoring every entry 0. -/
theorem C5_counterexample_mismatched_query_returns_ranked_list :
    stDim.faissIndex.map (fun e => e.embedding.length) = [2] ∧
    (searchSimilar stDim (some [1, 2, 3]) 5).map (fun r => r.similarity) =
      [simZero] ∧
    (searchSimilar stDim (some [1, 2, 3]) 5).length = 1 := by decide

/-- C5 amended: a query embedding whose length differs from every stored
entry's embedding is not rejected: cosineSimilarity returns 0 for each
mismatched pair and searchSimilar returns a ranked result list in which
every similarity is the zero score. -/
theorem C5_amended_mismatched_query_scores_zero (st : RAGState) (q : List ℚ)
    (topK : Int)
    (hmm : ∀ e ∈ st.faissIndex, q.length ≠ e.embedding.length) :
    ∀ r ∈ searchSimilar st (some q) topK, r.similarity = simZero := by
  intro r hr
  unfold searchSimilar at hr
  split_ifs at hr with h
  · cases hr
  · rcases List.mem_map.mp hr with ⟨it, hit, rfl⟩
    have hit2 : it ∈ (simList st q).insertionSort searchLe :=
      (jsSlice_sublist _ _).mem hit
    have hit3 : it ∈ simList st q :=
      (List.perm_insertionSort searchLe (simList st q)).mem_iff.mp hit2
    rcases List.mem_map.mp hit3 with ⟨p, hp, rfl⟩
    have hpe : p.2 ∈ st.faissIndex := by
      have h2 : Prod.snd p ∈ st.faissIndex.enum.map Prod.snd :=
        List.mem_map.mpr ⟨p, hp, rfl⟩
      rwa [List.enum_map_snd] at h2
    show cosineSimilarity q p.2.embedding = simZero
    unfold cosineSimilarity
    rw [if_pos (hmm p.2 hpe)]

theorem C5_amended_mismatched_query_scores_zero_witness :
    (∀ e ∈ stDim.faissIndex, ([1, 2, 3] : List ℚ).length ≠ e.embedding.length) ∧
    (⟨⟨1, [1, 1], pdA.metadata, jsSubstring pdA.content 1000, 1⟩, simZero⟩ :
      SearchResult).similarity = simZero :=
  ⟨by decide,
    C5_amended_mismatched_query_scores_zero stDim [1, 2, 3] 5 (by decide)
      ⟨⟨1, [1, 1], pdA.metadata, jsSubstring pdA.content 1000, 1⟩, simZero⟩
      (by decide)⟩

/-- C6 amended: searchSimilar applies JS slice semantics to topK: topK = 0
returns the empty sequence; a NEGATIVE topK does not return the empty
sequence but drops |topK| elements from the end of the ranked list; topK
at least the store size returns all stored entries, ranked. -/
theorem C6_amended_topK_slice_semantics (st : RAGState) (q : List ℚ)
    (k : Int) :
    (searchSimilar st (some q) 0 = []) ∧
    (st.faissIndex ≠ [] → k < 0 →
      (searchSimilar st (some q) k).length
        = ((st.faissIndex.length : Int) + k).toNat) ∧
    ((st.faissIndex.length : Int) ≤ k →
      ((searchSimilar st (some q) k).map (fun r => r.entry)).Perm
        st.faissIndex) := by
  have hlen : ((simList st q).insertionSort searchLe).length
      = st.faissIndex.length := by
    rw [List.length_insertionSort]
    unfold simList
    rw [List.length_map, List.enum_length]
  refine ⟨?_, ?_, ?_⟩
  · unfold searchSimilar
    split_ifs with h
    · rfl
    · simp [jsSlice]
  · intro hne hk
    unfold searchSimilar
    rw [if_neg hne]
    show ((jsSlice ((simList st q).insertionSort searchLe) k).map
      (fun it => (⟨it.entry, it.similarity⟩ : SearchResult))).length = _
    rw [List.length_map]
    unfold jsSlice
    rw [if_pos hk, List.length_take, hlen]
    have hle : (((st.faissIndex.length : Int) + k).toNat) ≤ st.faissIndex.length := by
      omega
    omega
  · intro hk
    unfold searchSimilar
    split_ifs with h
    · rw [h]
      exact List.Perm.refl _
    · show (((jsSlice ((simList st q).insertionSort searchLe) k).map
        (fun it => (⟨it.entry, it.similarity⟩ : SearchResult))).map
          (fun r => r.entry)).Perm st.faissIndex
      have hk0 : ¬ k < 0 := by
        have : (0:Int) ≤ (st.faissIndex.length : Int) := by positivity
        omega
      have hslice : jsSlice ((simList st q).insertionSort searchLe) k
          = (simList st q).insertionSort searchLe := by
        unfold jsSlice
        rw [if_neg hk0]
        apply List.take_of_length_le
        rw [hlen]
        omega
      rw [hslice, List.map_map]
      have hmapentry : (((simList st q).insertionSort searchLe).map
          ((fun r => r.entry) ∘ (fun it => (⟨it.entry, it.similarity⟩ : SearchResult))))
          = ((simList st q).insertionSort searchLe).map (fun it => it.entry) := rfl
      rw [hmapentry]
      have hperm : (((simList st q).insertionSort searchLe).map
          (fun it => it.entry)).Perm ((simList st q).map (fun it => it.entry)) :=
        (List.perm_insertionSort searchLe (simList st q)).map _
      have hsl : (simList st q).map (fun it => it.entry) = st.faissIndex := by
        unfold simList
        rw [List.map_map]
        have : ((fun it => SimEntry.entry it) ∘
            (fun p : Nat × IndexEntry => (⟨p.1, cosineSimilarity q p.2.embedding, p.2⟩ : SimEntry)))
            = Prod.snd := rfl
        rw [this, List.enum_map_snd]
      rw [hsl] at hperm
      exact hperm

theorem C6_amended_topK_slice_semantics_witness :
    (searchSimilar stAB (some [0, 0]) 0 = []) ∧
    ((searchSimilar stAB (some [0, 0]) (-1)).length
      = ((stAB.faissIndex.length : Int) + (-1)).toNat) ∧
    (((searchSimilar stAB (some [0, 0]) 7).map (fun r => r.entry)).Perm
      stAB.faissIndex) :=
  ⟨(C6_amended_topK_slice_semantics stAB [0, 0] 7).1,
    (C6_amended_topK_slice_semantics stAB [0, 0] (-1)).2.1 (by decide) (by decide),
    (C6_amended_topK_slice_semantics stAB [0, 0] 7).2.2 (by decide)⟩

/-- C8: the options page round trip holds at the persisted level: export,
then clearing the index (which saves the emptied store), then import
restores exactly the storage that was exported, and reloading it rebuilds a
store with the original entries and map; a backup failing the validation
check (missing version, missing data, or an empty falsy version string)
leaves the existing storage entirely unchanged. -/
theorem C8_export_clear_import_round_trip :
    (∀ s : LocalStorage,
      importDataOp (saveStoredData (clearIndex (loadStoredData s))) (exportData s)
        = (s, true)) ∧
    (∀ st : RAGState, (st.urlMappings.map Prod.fst).Nodup →
      loadStoredData
        (importDataOp (saveStoredData (clearIndex st))
          (exportData (saveStoredData st))).1 = st) ∧
    (∀ (s : LocalStorage) (b : RawBackup),
      (b.version = none ∨ b.data = none ∨ b.version = some "") →
      importDataOp s b = (s, false)) := by
  refine ⟨?_, ?_, ?_⟩
  · intro s
    rfl
  · intro st h
    have h1 : (importDataOp (saveStoredData (clearIndex st))
        (exportData (saveStoredData st))).1 = saveStoredData st := rfl
    rw [h1]
    exact load_save h
  · intro s b hb
    rcases b with ⟨v, d⟩
    rcases hb with h | h | h
    · simp only at h
      subst h
      rfl
    · simp only at h
      subst h
      cases v <;> rfl
    · simp only at h
      subst h
      cases d <;> rfl

theorem C8_export_clear_import_round_trip_witness :
    (importDataOp (saveStoredData (clearIndex (loadStoredData (saveStoredData stAB))))
      (exportData (saveStoredData stAB)) = (saveStoredData stAB, true)) ∧
    (loadStoredData
      (importDataOp (saveStoredData (clearIndex stAB))
        (exportData (saveStoredData stAB))).1 = stAB) ∧
    (importDataOp emptyStorage ⟨none, none⟩ = (emptyStorage, false)) :=
  ⟨C8_export_clear_import_round_trip.1 (saveStoredData stAB),
    C8_export_clear_import_round_trip.2.1 stAB (by decide),
    C8_export_clear_import_round_trip.2.2 emptyStorage ⟨none, none⟩ (Or.inl rfl)⟩

/-- Storage content of a deliberately mismatched backup: it holds one
index entry but an empty URL map. -/
def mismatchedStorage : LocalStorage :=
  ⟨some [⟨7, [1], pdA.metadata, "stale preview", 7⟩], some []⟩

/-- A backup the options-page import accepts (version and data are both
present and truthy — the only validation importData performs) whose
urlMappings does not match its faissIndex. -/
def mismatchedBackup : RawBackup := ⟨some "1.0.0", some mismatchedStorage⟩

/-- C9 counterexample: the options-page import accepts the mismatched
backup and installs its storage unchanged, and the next startup load of
that storage yields a state whose URL map and entry collection are NOT
mutually consistent (the stored entry's URL has no mapping), refuting the
claim for the startup-load-from-persistence case. -/
theorem C9_counterexample_imported_backup_breaks_consistency :
    importDataOp (saveStoredData stA) mismatchedBackup = (mismatchedStorage, true) ∧
    ¬ MutuallyConsistent (loadStoredData mismatchedStorage) := by
  constructor
  · rfl
  · unfold MutuallyConsistent
    decide

end RAG
